import Mathlib

/-!
Shallow embedding of the Boggle solver (`boggle.js`): a trie over
lowercase letters built from the dictionary, and a backtracking search
over the board that uses the trie to prune.

Conventions of the embedding:
* a JS string is a `List Char` (`Word`); `toLowerCase` is `lowerWord`;
* a `TrieNode`'s `children` object is an association list with unique
  keys, written via `assocGet` / `assocSet` (property update replaces in
  place, a fresh key is appended — JS object key order);
* the fields `parent`, `letter` and `hasChildren` of the JS `TrieNode`
  are never read by any query or by the search, so they are omitted;
* the mutable `path` array and the `words` accumulator of the JS search
  are threaded explicitly: `path.push` is `path ++ [c]`, `path.pop()` is
  `List.dropLast`, and each recursive call returns the pair
  (path after the call, words after the call) exactly as the mutation
  leaves them;
* the recursion of `backTrack` is given an explicit budget (`fuel`);
  `solve` supplies `board.length + 1`, which the search can never
  exhaust because the visited path only ever receives distinct valid
  cell indices.
-/

namespace Boggle

abbrev Word := List Char

/-- Embedding of `word.toLowerCase()` on single-character letters. -/
def lowerWord (w : Word) : Word := w.map Char.toLower

/-- Association-list read, the embedding of `object[key]`. -/
def assocGet {α : Type} : List (Char × α) → Char → Option α
  | [], _ => none
  | (d, y) :: rest, c => if d = c then some y else assocGet rest c

/-- Association-list write, the embedding of `object[key] = value`:
replaces in place when the key is present, otherwise appends. -/
def assocSet {α : Type} : List (Char × α) → Char → α → List (Char × α)
  | [], c, x => [(c, x)]
  | (d, y) :: rest, c, x =>
    if d = c then (c, x) :: rest else (d, y) :: assocSet rest c x

/-- Embedding of the JS `TrieNode`: the `children` map and the
`isTerminal` flag (the unread `parent` / `letter` fields are dropped). -/
inductive TrieNode : Type where
  | mk : List (Char × TrieNode) → Bool → TrieNode

def TrieNode.children : TrieNode → List (Char × TrieNode)
  | .mk cs _ => cs

def TrieNode.isTerminal : TrieNode → Bool
  | .mk _ b => b

/-- `getChild` of `TrieNode` (also covers `hasChild`, which is just a
definedness test on the same lookup). -/
def TrieNode.getChild (n : TrieNode) (c : Char) : Option TrieNode :=
  assocGet n.children c

/-- `setChild` of `TrieNode`. -/
def TrieNode.setChild (n : TrieNode) (c : Char) (m : TrieNode) : TrieNode :=
  .mk (assocSet n.children c m) n.isTerminal

/-- The node `addWord` continues from at letter `c`: the existing child
when present, otherwise the freshly created `new TrieNode`. -/
def TrieNode.childFor (n : TrieNode) (c : Char) : TrieNode :=
  match n.getChild c with
  | some m => m
  | none => .mk [] false

/-- Functional rendering of the walk-and-mutate loop of `Trie.addWord`
(the word is already lower-cased by the caller): walk the letters,
creating missing children, and mark the final node terminal. -/
def TrieNode.insertWord : TrieNode → Word → TrieNode
  | n, [] => .mk n.children true
  | n, c :: cs => n.setChild c ((n.childFor c).insertWord cs)

/-- The walk shared by `hasSubString`: follow the letters from a node,
`none` as soon as a required child is absent. -/
def TrieNode.walk : TrieNode → Word → Option TrieNode
  | n, [] => some n
  | n, c :: cs =>
    match n.getChild c with
    | some m => m.walk cs
    | none => none

/-- Embedding of the JS `Trie`: its root node. -/
structure Trie where
  root : TrieNode

/-- `Trie.addWord`: lower-cases, then walks/creates and marks terminal. -/
def Trie.addWord (t : Trie) (w : Word) : Trie :=
  ⟨t.root.insertWord (lowerWord w)⟩

/-- The `Trie` constructor: start from a root with no children and no
terminal mark, `addWord` every dictionary word in order. -/
def Trie.ofWords (ws : List Word) : Trie :=
  ws.foldl Trie.addWord ⟨.mk [] false⟩

/-- `Trie.hasSubString(word, isTerminal)`: lower-case the query, walk it
from the root; `false` when the walk dies, otherwise `true` for a prefix
query and the final node's terminal flag for a whole-word query. -/
def Trie.hasSubString (t : Trie) (word : Word) (isTerminal : Bool) : Bool :=
  match t.root.walk (lowerWord word) with
  | none => false
  | some n => if isTerminal then n.isTerminal else true

/-- Embedding of `BoggleGame`'s constructor arguments; the `trie` field
is the (pure) value the constructor computes from `dictionary`. -/
structure BoggleGame where
  width : Nat
  height : Nat
  board : List Char
  dictionary : List Word
deriving DecidableEq

def BoggleGame.trie (g : BoggleGame) : Trie :=
  Trie.ofWords g.dictionary

/-- `isValidCell`: nonnegative and less than `board.length`. -/
def BoggleGame.isValidCell (g : BoggleGame) (i : Int) : Bool :=
  0 ≤ i && i < (g.board.length : Int)

/-- `getAdjacent`: the eight linear-index offsets, filtered only by
`isValidCell` (the arithmetic is over integers, as in JS). -/
def BoggleGame.getAdjacent (g : BoggleGame) (i : Nat) : List Nat :=
  ([(i : Int) - ((g.width : Int) + 1),
    (i : Int) - (g.width : Int),
    (i : Int) - ((g.width : Int) - 1),
    (i : Int) - 1,
    (i : Int) + 1,
    (i : Int) + ((g.width : Int) - 1),
    (i : Int) + (g.width : Int),
    (i : Int) + ((g.width : Int) + 1)].filter g.isValidCell).map Int.toNat

/-- The `foundWord` closure of `solve`: push the word unless it is
already in the accumulator. -/
def foundWord (words : List Word) (w : Word) : List Word :=
  if words.contains w then words else words ++ [w]

/-- The `for (const nextCell of adjacent)` loop of `backTrack`. `bt` is
the recursive call at the next depth; the loop threads the pair
(visited path, found words), popping the pushed cell from whatever path
the recursive call returns, exactly as `path.pop()` does. -/
def BoggleGame.backTrackGo (g : BoggleGame)
    (bt : Word → Nat → List Nat → List Word → List Nat × List Word) :
    List Nat → Word → List Nat → List Word → List Nat × List Word
  | [], _, path, words => (path, words)
  | nextCell :: rest, currentWord, path, words =>
    if path.contains nextCell then
      g.backTrackGo bt rest currentWord path words
    else
      let nextWord := currentWord ++ [g.board.getD nextCell ' ']
      if g.trie.hasSubString nextWord false then
        let r := bt nextWord nextCell (path ++ [nextCell]) words
        g.backTrackGo bt rest currentWord r.1.dropLast r.2
      else
        g.backTrackGo bt rest currentWord path words

/-- `backTrack(currentWord, currentCell, path, depth, foundWord)` with an
explicit recursion budget (first argument) standing for the JS call
stack: emit the current word when it is long enough and terminal in the
trie, then run the adjacency loop at depth + 1. -/
def BoggleGame.backTrack (g : BoggleGame) :
    Nat → Word → Nat → List Nat → Nat → List Word → List Nat × List Word
  | 0, _, _, path, _, words => (path, words)
  | fuel + 1, currentWord, currentCell, path, depth, words =>
    let words1 :=
      if 3 ≤ currentWord.length ∧ g.trie.hasSubString currentWord true = true then
        foundWord words currentWord
      else words
    g.backTrackGo (fun w c p ws => g.backTrack fuel w c p (depth + 1) ws)
      (g.getAdjacent currentCell) currentWord path words1

/-- `solve()`: run `backTrack` from every board cell with the cell's
letter as the word, an empty visited path, depth 0, and the shared
accumulator of found words. -/
def BoggleGame.solve (g : BoggleGame) : List Word :=
  g.board.enum.foldl
    (fun words p => (g.backTrack (g.board.length + 1) [p.2] p.1 [] 0 words).2)
    []

/-! ### Association-list and trie-node lemmas -/

lemma assocGet_set_same {α : Type} (l : List (Char × α)) (c : Char) (x : α) :
    assocGet (assocSet l c x) c = some x := by
  induction l with
  | nil => simp [assocGet, assocSet]
  | cons hd tl ih =>
    obtain ⟨d, y⟩ := hd
    by_cases h : d = c <;> simp [assocGet, assocSet, h, ih]

lemma assocGet_set_ne {α : Type} (l : List (Char × α)) {c d : Char} (x : α)
    (h : d ≠ c) : assocGet (assocSet l c x) d = assocGet l d := by
  induction l with
  | nil => simp [assocGet, assocSet, h, Ne.symm h]
  | cons hd tl ih =>
    obtain ⟨e, y⟩ := hd
    by_cases he : e = c
    · subst he
      simp [assocGet, assocSet, Ne.symm h]
    · simp [assocGet, assocSet, he, ih]

lemma TrieNode.getChild_setChild_same (n : TrieNode) (c : Char) (m : TrieNode) :
    (n.setChild c m).getChild c = some m :=
  assocGet_set_same n.children c m

lemma TrieNode.getChild_setChild_ne (n : TrieNode) {c d : Char} (m : TrieNode)
    (h : d ≠ c) : (n.setChild c m).getChild d = n.getChild d :=
  assocGet_set_ne n.children m h

lemma TrieNode.isTerminal_setChild (n : TrieNode) (c : Char) (m : TrieNode) :
    (n.setChild c m).isTerminal = n.isTerminal := rfl

lemma TrieNode.getChild_mk_children (n : TrieNode) (b : Bool) (c : Char) :
    (TrieNode.mk n.children b).getChild c = n.getChild c := rfl

/-- Whether a walk from `n` along `w` ends at a terminal node. -/
def TrieNode.terminalIn (n : TrieNode) (w : Word) : Bool :=
  match n.walk w with
  | some m => m.isTerminal
  | none => false

lemma TrieNode.walk_nil (n : TrieNode) : n.walk [] = some n := rfl

lemma TrieNode.walk_cons (n : TrieNode) (c : Char) (cs : Word) :
    n.walk (c :: cs) =
      match n.getChild c with
      | some m => m.walk cs
      | none => none := rfl

lemma TrieNode.terminalIn_nil (n : TrieNode) :
    n.terminalIn [] = n.isTerminal := rfl

lemma TrieNode.terminalIn_cons (n : TrieNode) (c : Char) (cs : Word) :
    n.terminalIn (c :: cs) =
      match n.getChild c with
      | some m => m.terminalIn cs
      | none => false := by
  unfold terminalIn
  rw [walk_cons]
  cases n.getChild c <;> rfl

lemma TrieNode.walk_append (n : TrieNode) (xs ys : Word) :
    n.walk (xs ++ ys) = (n.walk xs).bind (fun m => m.walk ys) := by
  induction xs generalizing n with
  | nil => simp [walk_nil]
  | cons c cs ih =>
    rw [List.cons_append, walk_cons, walk_cons]
    cases n.getChild c with
    | none => rfl
    | some m => simp [ih]

lemma TrieNode.terminalIn_childFor (n : TrieNode) (a : Char) (cs : Word) :
    (n.childFor a).terminalIn cs = n.terminalIn (a :: cs) := by
  rw [terminalIn_cons]
  unfold childFor
  cases h : n.getChild a with
  | some m => rfl
  | none =>
    cases cs with
    | nil => rfl
    | cons c cs' =>
      rw [terminalIn_cons]
      have : (TrieNode.mk [] false).getChild c = none := rfl
      rw [this]

/-- Inserting `v` makes exactly `v` terminal and preserves every other
terminal word. -/
lemma TrieNode.terminalIn_insertWord (v : Word) : ∀ (n : TrieNode) (w : Word),
    (n.insertWord v).terminalIn w = true ↔ (w = v ∨ n.terminalIn w = true) := by
  induction v with
  | nil =>
    intro n w
    cases w with
    | nil => simp [insertWord, terminalIn_nil, isTerminal]
    | cons c cs =>
      rw [insertWord, terminalIn_cons, terminalIn_cons, getChild_mk_children]
      simp
  | cons a as ih =>
    intro n w
    cases w with
    | nil =>
      rw [insertWord, terminalIn_nil, isTerminal_setChild, ← terminalIn_nil]
      simp
    | cons c cs =>
      rw [insertWord]
      by_cases hca : c = a
      · subst hca
        rw [terminalIn_cons, getChild_setChild_same, ih, terminalIn_childFor]
        simp
      · rw [terminalIn_cons, getChild_setChild_ne _ _ hca, ← terminalIn_cons]
        simp [hca]

lemma TrieNode.terminalIn_empty (w : Word) :
    (TrieNode.mk [] false).terminalIn w = false := by
  cases w with
  | nil => rfl
  | cons c cs =>
    rw [terminalIn_cons]
    have : (TrieNode.mk [] false).getChild c = none := rfl
    rw [this]

lemma terminalIn_foldl_addWord : ∀ (ws : List Word) (t : Trie) (w : Word),
    (ws.foldl Trie.addWord t).root.terminalIn w = true ↔
      ((∃ v ∈ ws, lowerWord v = w) ∨ t.root.terminalIn w = true) := by
  intro ws
  induction ws with
  | nil => simp
  | cons v vs ih =>
    intro t w
    rw [List.foldl_cons, ih]
    have : (t.addWord v).root = t.root.insertWord (lowerWord v) := rfl
    rw [this, TrieNode.terminalIn_insertWord]
    constructor
    · rintro (⟨u, hu, hlu⟩ | h | h)
      · exact Or.inl ⟨u, List.mem_cons_of_mem _ hu, hlu⟩
      · exact Or.inl ⟨v, List.mem_cons_self _ _, h.symm⟩
      · exact Or.inr h
    · rintro (⟨u, hu, hlu⟩ | h)
      · rcases List.mem_cons.mp hu with h' | h'
        · subst h'
          exact Or.inr (Or.inl hlu.symm)
        · exact Or.inl ⟨u, h', hlu⟩
      · exact Or.inr (Or.inr h)

/-- The terminal words of `Trie.ofWords ws` are exactly the lower-cased
members of `ws`. -/
lemma terminalIn_ofWords (ws : List Word) (w : Word) :
    (Trie.ofWords ws).root.terminalIn w = true ↔ ∃ v ∈ ws, lowerWord v = w := by
  rw [Trie.ofWords, terminalIn_foldl_addWord]
  have : (Trie.mk (.mk [] false)).root.terminalIn w = false :=
    TrieNode.terminalIn_empty w
  simp [this]

lemma Trie.hasSubString_true (t : Trie) (w : Word) :
    t.hasSubString w true = t.root.terminalIn (lowerWord w) := by
  unfold hasSubString TrieNode.terminalIn
  cases t.root.walk (lowerWord w) <;> simp

lemma Trie.hasSubString_false (t : Trie) (w : Word) :
    t.hasSubString w false = (t.root.walk (lowerWord w)).isSome := by
  unfold hasSubString
  cases t.root.walk (lowerWord w) <;> simp

/-! ### Invariants of the backtracking search -/

lemma foundWord_grows (words : List Word) (w : Word) :
    words <+: foundWord words w := by
  unfold foundWord
  by_cases h : w ∈ words <;> simp [h]

lemma mem_foundWord {words : List Word} {w x : Word}
    (hx : x ∈ foundWord words w) : x ∈ words ∨ x = w := by
  unfold foundWord at hx
  by_cases h : w ∈ words
  · simp [h] at hx
    exact Or.inl hx
  · simp [h] at hx
    exact hx

lemma nodup_foundWord {words : List Word} (w : Word) (hn : words.Nodup) :
    (foundWord words w).Nodup := by
  unfold foundWord
  by_cases h : w ∈ words
  · simpa [h] using hn
  · simp [h, List.nodup_append, hn]

/-- The invariant a depth's search function maintains on the threaded
state: it hands the visited path back unchanged, it only appends to the
accumulator, and every word it adds is at least three letters long and
terminal in the game's trie. -/
def BTInv (g : BoggleGame)
    (bt : Word → Nat → List Nat → List Word → List Nat × List Word) : Prop :=
  ∀ cw cc path words,
    (bt cw cc path words).1 = path ∧
    words <+: (bt cw cc path words).2 ∧
    (∀ x ∈ (bt cw cc path words).2,
      x ∈ words ∨ (3 ≤ x.length ∧ g.trie.hasSubString x true = true)) ∧
    (words.Nodup → (bt cw cc path words).2.Nodup)

lemma backTrackGo_inv (g : BoggleGame)
    (bt : Word → Nat → List Nat → List Word → List Nat × List Word)
    (hbt : BTInv g bt) :
    ∀ (adj : List Nat) (cw : Word) (path : List Nat) (words : List Word),
      (g.backTrackGo bt adj cw path words).1 = path ∧
      words <+: (g.backTrackGo bt adj cw path words).2 ∧
      (∀ x ∈ (g.backTrackGo bt adj cw path words).2,
        x ∈ words ∨ (3 ≤ x.length ∧ g.trie.hasSubString x true = true)) ∧
      (words.Nodup → (g.backTrackGo bt adj cw path words).2.Nodup) := by
  intro adj
  induction adj with
  | nil =>
    intro cw path words
    refine ⟨rfl, List.prefix_refl _, ?_, fun h => h⟩
    intro x hx
    exact Or.inl hx
  | cons nextCell rest ih =>
    intro cw path words
    rw [BoggleGame.backTrackGo]
    dsimp only
    split_ifs with hvis hpre
    · exact ih cw path words
    · obtain ⟨h1, h2, h3, h4⟩ :=
        hbt (cw ++ [g.board.getD nextCell ' ']) nextCell (path ++ [nextCell]) words
      have hdrop :
          (bt (cw ++ [g.board.getD nextCell ' ']) nextCell
            (path ++ [nextCell]) words).1.dropLast = path := by
        rw [h1]
        exact List.dropLast_concat
      obtain ⟨g1, g2, g3, g4⟩ := ih cw
        ((bt (cw ++ [g.board.getD nextCell ' ']) nextCell
          (path ++ [nextCell]) words).1.dropLast)
        ((bt (cw ++ [g.board.getD nextCell ' ']) nextCell
          (path ++ [nextCell]) words).2)
      refine ⟨by rw [g1, hdrop], h2.trans g2, ?_, fun hn => g4 (h4 hn)⟩
      intro x hx
      rcases g3 x hx with hx' | hx'
      · exact h3 x hx'
      · exact Or.inr hx'
    · exact ih cw path words

lemma backTrack_inv (g : BoggleGame) :
    ∀ (fuel depth : Nat),
      BTInv g (fun cw cc path words => g.backTrack fuel cw cc path depth words) := by
  intro fuel
  induction fuel with
  | zero =>
    intro depth cw cc path words
    refine ⟨rfl, List.prefix_refl _, ?_, fun h => h⟩
    intro x hx
    exact Or.inl hx
  | succ fuel ih =>
    intro depth cw cc path words
    simp only [BoggleGame.backTrack]
    by_cases hemit : 3 ≤ cw.length ∧ g.trie.hasSubString cw true = true
    · simp only [hemit, if_true]
      obtain ⟨h1, h2, h3, h4⟩ :=
        backTrackGo_inv g _ (ih (depth + 1)) (g.getAdjacent cc) cw path
          (foundWord words cw)
      refine ⟨h1, (foundWord_grows words cw).trans h2, ?_,
        fun hn => h4 (nodup_foundWord cw hn)⟩
      intro x hx
      rcases h3 x hx with hx' | hx'
      · rcases mem_foundWord hx' with hx'' | hx''
        · exact Or.inl hx''
        · subst hx''
          exact Or.inr hemit
      · exact Or.inr hx'
    · simp only [hemit, if_false]
      exact backTrackGo_inv g _ (ih (depth + 1)) (g.getAdjacent cc) cw path words

lemma solve_foldl_mem (g : BoggleGame) (F : Nat) :
    ∀ (l : List (Nat × Char)) (ws : List Word)
      (h : ∀ x ∈ ws, 3 ≤ x.length ∧ g.trie.hasSubString x true = true),
      ∀ x ∈ l.foldl
        (fun words p => (g.backTrack F [p.2] p.1 [] 0 words).2) ws,
        3 ≤ x.length ∧ g.trie.hasSubString x true = true := by
  intro l
  induction l with
  | nil => intro ws h x hx; exact h x hx
  | cons p rest ih =>
    intro ws h x hx
    rw [List.foldl_cons] at hx
    refine ih _ ?_ x hx
    intro y hy
    rcases (backTrack_inv g F 0 [p.2] p.1 [] ws).2.2.1 y hy with hy' | hy'
    · exact h y hy'
    · exact hy'

lemma solve_foldl_nodup (g : BoggleGame) (F : Nat) :
    ∀ (l : List (Nat × Char)) (ws : List Word) (h : ws.Nodup),
      (l.foldl (fun words p => (g.backTrack F [p.2] p.1 [] 0 words).2) ws).Nodup := by
  intro l
  induction l with
  | nil => intro ws h; exact h
  | cons p rest ih =>
    intro ws h
    rw [List.foldl_cons]
    exact ih _ ((backTrack_inv g F 0 [p.2] p.1 [] ws).2.2.2 h)

/-- Every word `solve` returns is at least three letters long and is a
terminal word of the game's trie. -/
lemma solve_mem (g : BoggleGame) :
    ∀ x ∈ g.solve, 3 ≤ x.length ∧ g.trie.hasSubString x true = true := by
  intro x hx
  exact solve_foldl_mem g (g.board.length + 1) g.board.enum [] (by simp) x hx

/-! ### Concrete games used by the claims -/

/-- 2x2 board `a b / c d` with the single dictionary word `aba`. -/
def gameRepeat : BoggleGame := ⟨2, 2, "abcd".toList, ["aba".toList]⟩

/-- The 2x2 board and dictionary of the spec's Scenario 1. -/
def gameScenario1 : BoggleGame :=
  ⟨2, 2, "abcd".toList, ["ab".toList, "abc".toList, "abd".toList, "xyz".toList]⟩

/-- A 3x1 board whose letters are upper-case, dictionary `abc`. -/
def gameUpper : BoggleGame := ⟨3, 1, "ABC".toList, ["abc".toList]⟩

/-- A one-column 1x2 board `a / b` with dictionary word `aab`. -/
def gameColumn : BoggleGame := ⟨1, 2, "ab".toList, ["aab".toList]⟩

/-- A 3x2 board used to exhibit wraparound adjacency. -/
def gameWrap : BoggleGame := ⟨3, 2, "abcdef".toList, []⟩

/-- A one-column 1x5 board used to instantiate the width-1 adjacency. -/
def gameColumnW : BoggleGame := ⟨1, 5, "aaaaa".toList, []⟩

/-! ### The claims -/

/-- C1: the no-repeat-cell invariant fails on the code as written.
`solve()` starts every search with an EMPTY visited path (not `[i]`), so
the starting cell may be revisited: on the 2x2 board `abcd`, which
contains exactly one letter `a`, `solve` emits `aba` — a word that can
only be traced by using the starting cell 0 twice (path 0 → 1 → 0). -/
theorem solve_reuses_start_cell :
    gameRepeat.solve = ["aba".toList] ∧ gameRepeat.board.count 'a' = 1 := by
  constructor <;> decide

/-- C2 counterexample: on Scenario 1 the result is not exactly the set
`["abc"]` — the word `abd` is also returned (path 0 → 1 → 3, cells 1 and
3 being vertically adjacent), and `abd` is not in `["abc"]`. -/
theorem scenario1_not_only_abc :
    "abd".toList ∈ gameScenario1.solve ∧ "abd".toList ∉ ["abc".toList] := by
  constructor <;> decide

/-- C2 (amended): on the 2x2 board `["a","b","c","d"]` with dictionary
`["ab","abc","abd","xyz"]`, `solve()` returns exactly `["abc", "abd"]`:
`abc` via path 0 → 1 → 2 and `abd` via path 0 → 1 → 3; the two-letter
`ab` is excluded and `xyz` is not traceable. -/
theorem scenario1_result :
    gameScenario1.solve = ["abc".toList, "abd".toList] := by
  decide

/-- C3 counterexample: on a board with upper-case letters, `solve`
returns the board's spelling (`"ABC"`), which is not the lower-casing of
any dictionary entry; only the case-insensitive comparison holds. -/
theorem solve_not_lowercased :
    "ABC".toList ∈ gameUpper.solve ∧
    gameUpper.dictionary = ["abc".toList] ∧
    lowerWord ("abc".toList) ≠ "ABC".toList := by
  refine ⟨by decide, rfl, by decide⟩

/-- C3 (amended): every word returned by `solve()` is present in the
dictionary the game was constructed with, up to case-insensitive
comparison: its lower-casing equals the lower-casing of some entry. -/
theorem solve_subset_dictionary (g : BoggleGame) (w : Word)
    (hw : w ∈ g.solve) : ∃ d ∈ g.dictionary, lowerWord w = lowerWord d := by
  obtain ⟨-, hterm⟩ := solve_mem g w hw
  rw [Trie.hasSubString_true] at hterm
  unfold BoggleGame.trie at hterm
  obtain ⟨d, hd, hld⟩ := (terminalIn_ofWords g.dictionary (lowerWord w)).mp hterm
  exact ⟨d, hd, hld.symm⟩

/-- C3 witness: the amended containment at a concrete run. -/
theorem solve_subset_dictionary_witness :
    ∃ d ∈ gameUpper.dictionary, lowerWord ("ABC".toList) = lowerWord d :=
  solve_subset_dictionary gameUpper ("ABC".toList) (by decide)

/-- C4: every word returned by `solve()` has length at least 3, for
every board and dictionary. -/
theorem solve_min_length (g : BoggleGame) (w : Word) (hw : w ∈ g.solve) :
    3 ≤ w.length :=
  (solve_mem g w hw).1

/-- C4 witness: the minimum length at a concrete returned word. -/
theorem solve_min_length_witness : 3 ≤ ("abc".toList).length :=
  solve_min_length gameScenario1 ("abc".toList) (by decide)

/-- C5: the list returned by `solve()` never contains duplicates — the
`foundWord` collector drops a word that is already present. -/
theorem solve_nodup (g : BoggleGame) : g.solve.Nodup := by
  unfold BoggleGame.solve
  exact solve_foldl_nodup g (g.board.length + 1) g.board.enum [] List.nodup_nil

/-- C6: trie round trip. For every word `w` of the list the trie was
built from, the whole-word query answers true, and the prefix query
answers true on every prefix of `w` (including `w` itself, since a full
walk ignores the terminal flag); both queries lower-case their argument
exactly as insertion does, so this holds for a query of arbitrary
casing. -/
theorem trie_round_trip (ws : List Word) (w : Word) (hw : w ∈ ws) :
    (∀ q : Word, lowerWord q = lowerWord w →
      (Trie.ofWords ws).hasSubString q true = true) ∧
    (∀ p q : Word, p <+: w → lowerWord q = lowerWord p →
      (Trie.ofWords ws).hasSubString q false = true) := by
  have hterm : (Trie.ofWords ws).root.terminalIn (lowerWord w) = true :=
    (terminalIn_ofWords ws (lowerWord w)).mpr ⟨w, hw, rfl⟩
  have hsome : ((Trie.ofWords ws).root.walk (lowerWord w)).isSome = true := by
    unfold TrieNode.terminalIn at hterm
    cases hwk : (Trie.ofWords ws).root.walk (lowerWord w) with
    | none => rw [hwk] at hterm; exact absurd hterm (by simp)
    | some m => simp
  constructor
  · intro q hq
    rw [Trie.hasSubString_true, hq]
    exact hterm
  · intro p q hp hq
    rw [Trie.hasSubString_false, hq]
    obtain ⟨s, hs⟩ := hp
    have hw' : lowerWord w = lowerWord p ++ lowerWord s := by
      rw [← hs]
      simp [lowerWord]
    rw [hw', TrieNode.walk_append] at hsome
    cases hwp : (Trie.ofWords ws).root.walk (lowerWord p) with
    | none => rw [hwp] at hsome; simp at hsome
    | some m => simp

/-- C6 witness: the round trip on a mixed-case word and queries. -/
theorem trie_round_trip_witness :
    (Trie.ofWords ["AbC".toList]).hasSubString ("aBc".toList) true = true ∧
    (Trie.ofWords ["AbC".toList]).hasSubString ("aB".toList) false = true := by
  have h := trie_round_trip ["AbC".toList] ("AbC".toList) (by decide)
  exact ⟨h.1 ("aBc".toList) (by decide),
         h.2 ("Ab".toList) ("aB".toList) (by decide) (by decide)⟩

/-- C7: the adjacency computation only bounds-checks the linear index,
so it wraps across rows: a rightmost-column cell that is not the last
cell has `i + 1` (the leftmost cell of the next row) among its computed
neighbors, and a leftmost-column cell with `i > 0` has `i - 1` (the
rightmost cell of the previous row) among its computed neighbors. -/
theorem getAdjacent_wraparound (g : BoggleGame) (i : Nat)
    (hw : 2 ≤ g.width) (hlen : g.board.length = g.width * g.height) :
    (i % g.width = g.width - 1 ∧ i + 1 < g.board.length →
      i + 1 ∈ g.getAdjacent i) ∧
    (i % g.width = 0 ∧ 0 < i ∧ i < g.board.length →
      i - 1 ∈ g.getAdjacent i) := by
  constructor
  · rintro ⟨-, hi⟩
    unfold BoggleGame.getAdjacent
    apply List.mem_map.mpr
    refine ⟨(i : Int) + 1, List.mem_filter.mpr ⟨by simp, ?_⟩, by omega⟩
    unfold BoggleGame.isValidCell
    simp only [Bool.and_eq_true, decide_eq_true_eq]
    omega
  · rintro ⟨-, hi0, hi⟩
    unfold BoggleGame.getAdjacent
    apply List.mem_map.mpr
    refine ⟨(i : Int) - 1, List.mem_filter.mpr ⟨by simp, ?_⟩, by omega⟩
    unfold BoggleGame.isValidCell
    simp only [Bool.and_eq_true, decide_eq_true_eq]
    omega

/-- C7 witness: in a 3x2 grid, cell 2 (rightmost, row 0) is computed
adjacent to cell 3 (leftmost, row 1), and conversely. -/
theorem getAdjacent_wraparound_witness :
    2 + 1 ∈ gameWrap.getAdjacent 2 ∧ 3 - 1 ∈ gameWrap.getAdjacent 3 :=
  ⟨(getAdjacent_wraparound gameWrap 2 (by decide) (by decide)).1
      ⟨by decide, by decide⟩,
   (getAdjacent_wraparound gameWrap 3 (by decide) (by decide)).2
      ⟨by decide, by decide, by decide⟩⟩

/-- C8: the search has no side effects on the game. The only state the
code mutates are the visited-path array and the accumulator of found
words, and `backTrack` restores the path exactly (every push is popped)
and only ever appends to the accumulator; the board, dictionary and trie
are not touched, so the result of `solve()` is a pure function of the
game and repeated calls agree. -/
theorem backTrack_frame (g : BoggleGame) (fuel : Nat) (cw : Word) (cc : Nat)
    (path : List Nat) (depth : Nat) (words : List Word) :
    (g.backTrack fuel cw cc path depth words).1 = path ∧
    words <+: (g.backTrack fuel cw cc path depth words).2 := by
  obtain ⟨h1, h2, -, -⟩ := backTrack_inv g fuel depth cw cc path words
  exact ⟨h1, h2⟩

/-- C9: for every trie, the prefix query on the empty string is true
(the walk of an empty word never dies), and the whole-word query on the
empty string is true exactly when the empty word was inserted — only
`addWord("")` marks the root node terminal. -/
theorem hasSubString_empty_query (ws : List Word) :
    (Trie.ofWords ws).hasSubString [] false = true ∧
    ((Trie.ofWords ws).hasSubString [] true = true ↔ [] ∈ ws) := by
  constructor
  · rw [Trie.hasSubString_false]
    simp [lowerWord, TrieNode.walk_nil]
  · rw [Trie.hasSubString_true]
    have h0 : lowerWord ([] : Word) = [] := rfl
    rw [h0, terminalIn_ofWords]
    constructor
    · rintro ⟨v, hv, hlv⟩
      have : v = [] := by simpa [lowerWord] using hlv
      subst this
      exact hv
    · intro h
      exact ⟨[], h, rfl⟩

/-- On a one-column game the eight candidate offsets collapse. -/
lemma getAdjacent_width_one_eq (g : BoggleGame) (hw : g.width = 1) (i : Nat) :
    g.getAdjacent i =
      ([(i : Int) - 2, (i : Int) - 1, (i : Int), (i : Int) - 1, (i : Int) + 1,
        (i : Int), (i : Int) + 1, (i : Int) + 2].filter
          g.isValidCell).map Int.toNat := by
  unfold BoggleGame.getAdjacent
  rw [hw]
  norm_num

/-- C10: on a board of width 1, every valid cell is its own computed
neighbor (the `± (width - 1)` offsets collapse to the cell itself), the
cells two rows away are neighbors when in bounds, the neighbor list has
duplicates, and the search can therefore extend a word by the starting
cell's own letter: on the 1x2 board `a / b`, `solve` finds `aab`, using
cell 0 twice. -/
theorem getAdjacent_width_one (g : BoggleGame) (i : Nat)
    (hw : g.width = 1) (hi : i < g.board.length) :
    i ∈ g.getAdjacent i ∧
    (2 ≤ i → i - 2 ∈ g.getAdjacent i) ∧
    (i + 2 < g.board.length → i + 2 ∈ g.getAdjacent i) ∧
    ¬ (g.getAdjacent i).Nodup ∧
    gameColumn.solve = ["aab".toList] := by
  have hvalid : g.isValidCell (i : Int) = true := by
    unfold BoggleGame.isValidCell
    simp only [Bool.and_eq_true, decide_eq_true_eq]
    omega
  rw [getAdjacent_width_one_eq g hw i]
  refine ⟨?_, ?_, ?_, ?_, by decide⟩
  · exact List.mem_map.mpr ⟨(i : Int), List.mem_filter.mpr ⟨by simp, hvalid⟩,
      by omega⟩
  · intro h2
    refine List.mem_map.mpr ⟨(i : Int) - 2,
      List.mem_filter.mpr ⟨by simp, ?_⟩, by omega⟩
    unfold BoggleGame.isValidCell
    simp only [Bool.and_eq_true, decide_eq_true_eq]
    omega
  · intro h2
    refine List.mem_map.mpr ⟨(i : Int) + 2,
      List.mem_filter.mpr ⟨by simp, ?_⟩, by omega⟩
    unfold BoggleGame.isValidCell
    simp only [Bool.and_eq_true, decide_eq_true_eq]
    omega
  · intro hnd
    have hsub : List.Sublist [(i : Int), (i : Int)]
        [(i : Int) - 2, (i : Int) - 1, (i : Int), (i : Int) - 1, (i : Int) + 1,
          (i : Int), (i : Int) + 1, (i : Int) + 2] := by
      apply List.Sublist.cons
      apply List.Sublist.cons
      apply List.Sublist.cons₂
      apply List.Sublist.cons
      apply List.Sublist.cons
      apply List.Sublist.cons₂
      exact List.nil_sublist _
    have hfil := hsub.filter g.isValidCell
    rw [show ([(i : Int), (i : Int)].filter g.isValidCell)
        = [(i : Int), (i : Int)] by simp [List.filter, hvalid]] at hfil
    have hmap := hfil.map Int.toNat
    have hcount := hmap.count_le i
    simp only [List.map_cons, List.map_nil, Int.toNat_natCast] at hcount
    have h2 : (2 : Nat) ≤ List.count i
        (([(i : Int) - 2, (i : Int) - 1, (i : Int), (i : Int) - 1, (i : Int) + 1,
          (i : Int), (i : Int) + 1, (i : Int) + 2].filter
            g.isValidCell).map Int.toNat) := by
      have : List.count i [i, i] = 2 := by simp
      omega
    have := List.nodup_iff_count_le_one.mp hnd i
    omega

/-- C10 witness: the width-1 adjacency at cell 2 of a 1x5 board. -/
theorem getAdjacent_width_one_witness :
    2 ∈ gameColumnW.getAdjacent 2 ∧
    (2 ≤ 2 → 2 - 2 ∈ gameColumnW.getAdjacent 2) ∧
    (2 + 2 < gameColumnW.board.length → 2 + 2 ∈ gameColumnW.getAdjacent 2) ∧
    ¬ (gameColumnW.getAdjacent 2).Nodup ∧
    gameColumn.solve = ["aab".toList] :=
  getAdjacent_width_one gameColumnW 2 rfl (by decide)

end Boggle
